import Mathlib

/-!
# Learning Analytics & Ranking Engine — verification development

Shallow embedding of the analytics/ranking core of the e-learning backend
(`api/viewsets.py`: `DashboardViewSet.list`, `KidsViewSet.progress_garden`
and its inner `_compute_rank`), together with theorems settling the frozen
claims about it.

Conventions used throughout:
* calendar days are modelled as integers (`ℤ`), one unit per day, so that
  "consecutive days" means difference 1 — matching the Python code's
  `TruncDate` values and `(a - b).days` arithmetic;
* assessment scores are rationals (`ℚ`), standing for the Python floats
  (the code performs only sums, divisions and comparisons on them);
* Python's `round` (banker's rounding, half to even) is modelled
  explicitly as `pyRound`;
* database rows are lists of records; `values(...).annotate(...)`
  group-by aggregations are modelled on the set (`Finset`/`dedup`) of the
  grouped keys.
-/

namespace Elearn

/-- Python's `round` on a rational: nearest integer, halves to even
(banker's rounding): `round(12.5) = 12`, `round(13.5) = 14`. -/
def pyRound (q : ℚ) : ℤ :=
  if q - ⌊q⌋ < 1/2 then ⌊q⌋
  else if 1/2 < q - ⌊q⌋ then ⌊q⌋ + 1
  else if 2 ∣ ⌊q⌋ then ⌊q⌋ else ⌊q⌋ + 1

theorem floor_le_pyRound (q : ℚ) : ⌊q⌋ ≤ pyRound q := by
  unfold pyRound
  split_ifs <;> omega

theorem le_pyRound_of_le {a : ℤ} {q : ℚ} (hq : (a : ℚ) ≤ q) : a ≤ pyRound q :=
  le_trans (Int.le_floor.mpr hq) (floor_le_pyRound q)

theorem pyRound_le_of_le {q : ℚ} {b : ℤ} (hq : q ≤ b) : pyRound q ≤ b := by
  have hfb : ⌊q⌋ ≤ b := by
    have h := Int.floor_le_floor hq
    simpa using h
  have hflo := Int.floor_le q
  unfold pyRound
  split_ifs with h1 h2 h3
  · exact hfb
  · -- fractional part exceeds 1/2, so the floor is strictly below `b`
    have hq' : ⌊q⌋ < b := by
      by_contra hcon
      push_neg at hcon
      have hbq : (b : ℚ) ≤ (⌊q⌋ : ℚ) := by exact_mod_cast hcon
      have : q - (⌊q⌋ : ℚ) ≤ 0 := by linarith
      linarith
    omega
  · exact hfb
  · -- fractional part is exactly 1/2 and the floor is odd
    have h12 : q - (⌊q⌋ : ℚ) = 1/2 := le_antisymm (not_lt.mp h2) (not_lt.mp h1)
    have hq' : ⌊q⌋ < b := by
      by_contra hcon
      push_neg at hcon
      have hbq : (b : ℚ) ≤ (⌊q⌋ : ℚ) := by exact_mod_cast hcon
      have : q - (⌊q⌋ : ℚ) ≤ 0 := by linarith
      linarith
    omega

/-! ## Completion percentages (claim C8)

Both `DashboardViewSet.list` (viewsets.py:3154) and
`KidsViewSet.progress_garden` (viewsets.py:3726) compute a subject's
completion percent with the very same expression

  `percent = int(round((taken / total) * 100)) if total else 0`

The division is made explicit through `safeDiv`, whose `none` result marks
a division by zero, so that the guard's adequacy is visible in the model. -/

/-- Guarded rational division: `none` exactly when the denominator is 0. -/
def safeDiv (a b : ℚ) : Option ℚ := if b = 0 then none else some (a / b)

/-- `int(round((taken / total) * 100)) if total else 0` — per-subject
completion percent in the student dashboard (viewsets.py:3154). -/
def percentCompleteDashboard (taken total : ℕ) : Option ℤ :=
  if total ≠ 0 then (safeDiv (taken : ℚ) (total : ℚ)).map (fun q => pyRound (q * 100))
  else some 0

/-- `int(round((taken / total) * 100)) if total else 0` — per-subject
completion percent in the progress-garden view (viewsets.py:3726). -/
def percentCompleteGarden (taken total : ℕ) : Option ℤ :=
  if total ≠ 0 then (safeDiv (taken : ℚ) (total : ℚ)).map (fun q => pyRound (q * 100))
  else some 0

/-! ## Quick stats and overall progress (claim C9)

`DashboardViewSet.list` (viewsets.py:3067-3077) walks the grade's subjects
and counts completed (`tot > 0 and taken >= tot`) and in-progress
(`elif taken > 0 and taken < tot`) courses; `overall_progress`
(viewsets.py:3182) is `round((completed / total_courses) * 100)` guarded by
`total_courses > 0`. -/

/-- Per-subject totals for the student's grade: the subject's catalog
lesson count and the student's distinct taken-lesson count. -/
structure SubjectProgress where
  total : ℕ
  taken : ℕ
deriving DecidableEq

/-- The completed / in-progress counting loop of viewsets.py:3067-3077
(`if tot > 0 and taken >= tot: ... elif taken > 0 and taken < tot: ...`). -/
def quickStats (subjects : List SubjectProgress) : ℕ × ℕ :=
  subjects.foldl
    (fun acc s =>
      if 0 < s.total ∧ s.total ≤ s.taken then (acc.1 + 1, acc.2)
      else if 0 < s.taken ∧ s.taken < s.total then (acc.1, acc.2 + 1)
      else acc)
    (0, 0)

def completed_courses (subjects : List SubjectProgress) : ℕ := (quickStats subjects).1

def in_progress_courses (subjects : List SubjectProgress) : ℕ := (quickStats subjects).2

/-- `total_courses = subjects_qs.count()` (viewsets.py:3053). -/
def total_courses (subjects : List SubjectProgress) : ℕ := subjects.length

/-- `overall_progress` (viewsets.py:3182):
`round((completed_courses / total_courses) * 100) if total_courses > 0 else 0`. -/
def overall_progress (subjects : List SubjectProgress) : ℤ :=
  if 0 < total_courses subjects then
    pyRound (((completed_courses subjects : ℚ) / (total_courses subjects : ℚ)) * 100)
  else 0

theorem quickStats_fst_le (subjects : List SubjectProgress) :
    ∀ a b : ℕ,
      (subjects.foldl
        (fun acc s =>
          if 0 < s.total ∧ s.total ≤ s.taken then (acc.1 + 1, acc.2)
          else if 0 < s.taken ∧ s.taken < s.total then (acc.1, acc.2 + 1)
          else acc)
        (a, b)).1 ≤ a + subjects.length := by
  induction subjects with
  | nil => intro a b; simp
  | cons s rest ih =>
      intro a b
      simp only [List.foldl_cons, List.length_cons]
      split_ifs with h1 h2
      · exact (ih (a + 1) b).trans (by omega)
      · exact (ih a (b + 1)).trans (by omega)
      · exact (ih a b).trans (by omega)

theorem completed_le_total (subjects : List SubjectProgress) :
    completed_courses subjects ≤ total_courses subjects := by
  have h := quickStats_fst_le subjects 0 0
  simpa [completed_courses, quickStats, total_courses] using h

/-- C8: for every subject, the completion percent equals
`round(taken/total × 100)` when the subject's total catalog lesson count is
positive, and equals 0 when `total = 0`; the guarded division (`safeDiv`)
never hits a zero denominator, in both the dashboard and the
progress-garden call sites, which moreover agree. -/
theorem percent_complete_spec (taken total : ℕ) :
    (percentCompleteDashboard taken total).isSome = true ∧
    percentCompleteGarden taken total = percentCompleteDashboard taken total ∧
    (total = 0 → percentCompleteDashboard taken total = some 0) ∧
    (0 < total →
      percentCompleteDashboard taken total =
        some (pyRound (((taken : ℚ) / (total : ℚ)) * 100))) := by
  refine ⟨?_, rfl, ?_, ?_⟩
  · by_cases h : total = 0 <;>
      simp [percentCompleteDashboard, safeDiv, h, Nat.cast_eq_zero]
  · intro h; simp [percentCompleteDashboard, h]
  · intro h
    have hne : total ≠ 0 := h.ne'
    have h0 : (total : ℚ) ≠ 0 := by exact_mod_cast hne
    simp [percentCompleteDashboard, safeDiv, hne, h0]

/-- Witness for `percent_complete_spec`: at `taken = 1, total = 8` the
hypothesis `0 < 8` is discharged and the percent evaluates to
`round(12.5) = 12` (banker's rounding); at `total = 0` the result is 0. -/
theorem percent_complete_spec_witness :
    percentCompleteDashboard 1 8 = some 12 ∧ percentCompleteDashboard 3 0 = some 0 := by
  constructor
  · rw [(percent_complete_spec 1 8).2.2.2 (by norm_num)]
    have hp : pyRound (((1 : ℕ) : ℚ) / ((8 : ℕ) : ℚ) * 100) = 12 := by
      norm_num [pyRound]
    rw [hp]
  · exact (percent_complete_spec 3 0).2.2.1 rfl

/-- C9: for every student, `0 ≤ overall_progress_percent ≤ 100`, and it is
0 when `total_courses = 0`; in the concrete scenario of two subjects of 4
lessons each with 4/4 and 2/4 lessons taken, the dashboard reports
`completed_courses = 1`, `in_progress_courses = 1` and
`overall_progress_percent = 50`. -/
theorem overall_progress_spec (subjects : List SubjectProgress) :
    (0 ≤ overall_progress subjects ∧ overall_progress subjects ≤ 100) ∧
    (total_courses subjects = 0 → overall_progress subjects = 0) ∧
    (completed_courses [⟨4, 4⟩, ⟨4, 2⟩] = 1 ∧
      in_progress_courses [⟨4, 4⟩, ⟨4, 2⟩] = 1 ∧
      overall_progress [⟨4, 4⟩, ⟨4, 2⟩] = 50) := by
  have hc : completed_courses [⟨4, 4⟩, ⟨4, 2⟩] = 1 := by decide
  have ht : total_courses [(⟨4, 4⟩ : SubjectProgress), ⟨4, 2⟩] = 2 := by decide
  have hover : overall_progress [⟨4, 4⟩, ⟨4, 2⟩] = 50 := by
    unfold overall_progress
    rw [hc, ht]
    norm_num [pyRound]
  refine ⟨?_, ?_, hc, by decide, hover⟩
  · unfold overall_progress
    split_ifs with hpos
    · have hle : completed_courses subjects ≤ total_courses subjects :=
        completed_le_total subjects
      have htot : (0 : ℚ) < (total_courses subjects : ℚ) := by exact_mod_cast hpos
      constructor
      · refine le_pyRound_of_le ?_
        push_cast
        positivity
      · refine pyRound_le_of_le ?_
        have hq : ((completed_courses subjects : ℚ) / (total_courses subjects : ℚ)) ≤ 1 := by
          rw [div_le_one htot]
          exact_mod_cast hle
        push_cast
        nlinarith
    · exact ⟨le_refl 0, by norm_num⟩
  · intro h
    simp [overall_progress, h]

/-- Witness for `overall_progress_spec`: at the empty subject list the
`total_courses = 0` hypothesis is discharged and the progress is 0. -/
theorem overall_progress_spec_witness :
    overall_progress [] = 0 :=
  (overall_progress_spec []).2.1 rfl

/-! ## Performance scores and scope-population ranks (claims C1, C4)

`KidsViewSet.progress_garden` computes the requesting student's own
performance score (viewsets.py:3584-3601) by pooling all lesson-scoped and
general grade scores into one list and taking one mean; the inner
`_compute_rank` helper (viewsets.py:3603-3665) recomputes every cohort
member's score from the per-kind `Avg('score')` aggregates. -/

/-- `avg_score` for the requesting student (viewsets.py:3598-3599):
`all_scores = lesson_scores + general_scores`, then
`sum(all_scores) / len(all_scores)` when nonempty, else 0. -/
def my_avg_score (lessonScores generalScores : List ℚ) : ℚ :=
  let all_scores := lessonScores ++ generalScores
  if all_scores ≠ [] then all_scores.sum / all_scores.length else 0

/-- `my_perf_score` (viewsets.py:3601): `my_lessons_taken + (avg_score * 2.0)`. -/
def my_perf_score (lessonsTaken : ℕ) (lessonScores generalScores : List ℚ) : ℚ :=
  lessonsTaken + my_avg_score lessonScores generalScores * 2

/-- `Avg('score')` over one student's grades of one kind: `none` when the
student has no grades of that kind (the student is then absent from the
grouped aggregation's result, viewsets.py:3622-3640), otherwise the mean. -/
def listAvg (scores : List ℚ) : Option ℚ :=
  if scores ≠ [] then some (scores.sum / scores.length) else none

/-- The per-cohort-member average inside `_compute_rank`
(viewsets.py:3644-3654): when both kinds of grades exist, the two per-kind
averages are themselves averaged (`(ls + gs) / 2.0`); when only one
exists, that one; otherwise 0. -/
def cohort_avg (lessonScores generalScores : List ℚ) : ℚ :=
  match listAvg lessonScores, listAvg generalScores with
  | some ls, some gs => (ls + gs) / 2
  | some ls, none => ls
  | none, some gs => gs
  | none, none => 0

/-- A cohort member's performance score inside `_compute_rank`
(viewsets.py:3655): `perf = lessons + (avg * 2.0)`. -/
def cohort_perf (lessons : ℕ) (lessonScores generalScores : List ℚ) : ℚ :=
  lessons + cohort_avg lessonScores generalScores * 2

/-- One `TakeLesson` row: `(student_id, lesson_id)`.  The model's `created`
timestamps are irrelevant to the ranking claims and omitted here. -/
structure TakeRow where
  student : ℕ
  lesson : ℕ
deriving DecidableEq

/-- Stable insertion of a `(student, score)` pair into a score-descending
list: the new pair goes after every earlier pair whose score is `≥` its
own.  Folding it over the cohort models Python's stable
`perf_scores.sort(key=lambda x: x[1], reverse=True)` (viewsets.py:3659). -/
def insertByScoreDesc (x : ℕ × ℚ) : List (ℕ × ℚ) → List (ℕ × ℚ)
  | [] => [x]
  | y :: ys => if x.2 ≤ y.2 then y :: insertByScoreDesc x ys else x :: y :: ys

def sortByScoreDesc (l : List (ℕ × ℚ)) : List (ℕ × ℚ) :=
  l.foldl (fun acc x => insertByScoreDesc x acc) []

/-- The data surrounding `progress_garden`: the global `TakeLesson` table,
the school hierarchy (`Student.school_id`, `School.district_id`,
`District.county_id`, each nullable), and each student's grade scores of
both kinds. -/
structure GardenEnv where
  takeRows : List TakeRow
  schoolOf : ℕ → Option ℕ
  districtOfSchool : ℕ → Option ℕ
  countyOfDistrict : ℕ → Option ℕ
  lessonScores : ℕ → List ℚ
  generalScores : ℕ → List ℚ

/-- `student.school.district_id` resolved through the optional school. -/
def districtOf (env : GardenEnv) (s : ℕ) : Option ℕ :=
  (env.schoolOf s).bind env.districtOfSchool

/-- `student.school.district.county_id` resolved through the chain. -/
def countyOf (env : GardenEnv) (s : ℕ) : Option ℕ :=
  (districtOf env s).bind env.countyOfDistrict

/-- `_compute_rank` (viewsets.py:3603-3665), applied to the scope-filtered
`TakeLesson` rows.  `lessons` per student is `Count('id', distinct=True)`,
i.e. the number of scope rows of that student (`TakeLesson` primary keys
are distinct).  The database's unspecified `GROUP BY` output order is
modelled as first-occurrence order of the students in the row list; the
claims settled here do not depend on that order.  Returns
`(rank, cohort size)`: `(None, 0)` when the scope has no rows at all, and
`rank = none` also when the requesting student is absent from the cohort
(the loop at viewsets.py:3661-3664 never hits them). -/
def compute_rank (env : GardenEnv) (rows : List TakeRow) (me : ℕ) : Option ℕ × ℕ :=
  let student_ids := (rows.map TakeRow.student).dedup
  if student_ids = [] then (none, 0)
  else
    let lessonsOf := fun s => (rows.filter (fun r => r.student = s)).length
    let perf_scores := student_ids.map
      (fun s => (s, cohort_perf (lessonsOf s) (env.lessonScores s) (env.generalScores s)))
    let sorted := sortByScoreDesc perf_scores
    ((sorted.findIdx? (fun p => p.1 = me)).map (· + 1), sorted.length)

/-- The `rank_in_school` payload of `progress_garden`
(viewsets.py:3667-3677): absent school ⇒ no computation; a `None` rank
from `_compute_rank` ⇒ `null` payload. -/
def school_rank (env : GardenEnv) (me : ℕ) : Option (ℕ × ℕ) :=
  match env.schoolOf me with
  | none => none
  | some sid =>
      let rows := env.takeRows.filter (fun r => env.schoolOf r.student = some sid)
      let res := compute_rank env rows me
      res.1.map (fun v => (v, res.2))

/-- The `rank_in_district` payload (viewsets.py:3679-3689). -/
def district_rank (env : GardenEnv) (me : ℕ) : Option (ℕ × ℕ) :=
  match districtOf env me with
  | none => none
  | some did =>
      let rows := env.takeRows.filter (fun r => districtOf env r.student = some did)
      let res := compute_rank env rows me
      res.1.map (fun v => (v, res.2))

/-- The `rank_in_county` payload (viewsets.py:3691-3703). -/
def county_rank (env : GardenEnv) (me : ℕ) : Option (ℕ × ℕ) :=
  match countyOf env me with
  | none => none
  | some cid =>
      let rows := env.takeRows.filter (fun r => countyOf env r.student = some cid)
      let res := compute_rank env rows me
      res.1.map (fun v => (v, res.2))

/-- C1 counterexample: the requesting student's own score pools all grades
into one mean, while the cohort computation inside `_compute_rank`
averages the two per-kind means.  With lesson scores `[100]` and general
scores `[0, 0]` (one distinct lesson taken) the former is
`1 + 2·(100/3) = 203/3` and the latter `1 + 2·50 = 101`, so the two
ranking call sites disagree on this input. -/
theorem perf_score_call_sites_disagree :
    my_perf_score 1 [100] [0, 0] ≠ cohort_perf 1 [100] [0, 0] := by
  have hne3 : ¬([100, 0, 0] : List ℚ) = [] := by decide
  have hne1 : ¬([100] : List ℚ) = [] := by decide
  have hne2 : ¬([0, 0] : List ℚ) = [] := by decide
  have h1 : my_avg_score [100] [0, 0] = 100 / 3 := by
    simp only [my_avg_score, List.cons_append, List.nil_append, ne_eq]
    rw [if_pos hne3]
    norm_num [List.sum_cons, List.sum_nil]
  have hl : listAvg [100] = some 100 := by
    simp only [listAvg, ne_eq]
    rw [if_pos hne1]
    norm_num [List.sum_cons, List.sum_nil]
  have hg : listAvg [0, 0] = some 0 := by
    simp only [listAvg, ne_eq]
    rw [if_pos hne2]
    norm_num [List.sum_cons, List.sum_nil]
  have h2 : cohort_avg [100] [0, 0] = 50 := by
    simp only [cohort_avg, hl, hg]
    norm_num
  simp only [my_perf_score, cohort_perf, h1, h2]
  norm_num

/-- C1 (amended): every ranking computation uses the formula
`lessonsTaken + 2 × averageGrade` with the average defaulting to 0 when no
grades exist, but the two call sites average differently: the requesting
student's own score pools all grades into one mean, while `_compute_rank`
averages the per-kind means; the two agree whenever the student has grades
of at most one kind. -/
theorem perf_score_call_sites_agree (n : ℕ) (ls gs : List ℚ)
    (h : ls = [] ∨ gs = []) :
    my_perf_score n ls gs = cohort_perf n ls gs := by
  rcases h with h | h
  · subst h
    by_cases hg : gs = []
    · subst hg; simp [my_perf_score, my_avg_score, cohort_perf, cohort_avg, listAvg]
    · simp [my_perf_score, my_avg_score, cohort_perf, cohort_avg, listAvg, hg]
  · subst h
    by_cases hl : ls = []
    · subst hl; simp [my_perf_score, my_avg_score, cohort_perf, cohort_avg, listAvg]
    · simp [my_perf_score, my_avg_score, cohort_perf, cohort_avg, listAvg, hl]

/-- Witness for `perf_score_call_sites_agree`: a student with one lesson
taken and a single lesson-scoped grade of 80 gets the same score from both
call sites. -/
theorem perf_score_call_sites_agree_witness :
    my_perf_score 1 [80] [] = cohort_perf 1 [80] [] :=
  perf_score_call_sites_agree 1 [80] [] (Or.inr rfl)

/-- C4: absence of a resolvable cohort yields a `null` rank, never a
fault: with no school assigned all three ranks are `null`; and for each
scope, when the scope's `TakeLesson` population is empty the corresponding
rank is `null`.  (The embedded payload functions are total, so no input
raises.) -/
theorem garden_rank_null_on_empty_cohort (env : GardenEnv) (me : ℕ) :
    (env.schoolOf me = none →
      school_rank env me = none ∧ district_rank env me = none ∧
        county_rank env me = none) ∧
    (∀ sid, env.schoolOf me = some sid →
      env.takeRows.filter (fun r => env.schoolOf r.student = some sid) = [] →
      school_rank env me = none) ∧
    (∀ did, districtOf env me = some did →
      env.takeRows.filter (fun r => districtOf env r.student = some did) = [] →
      district_rank env me = none) ∧
    (∀ cid, countyOf env me = some cid →
      env.takeRows.filter (fun r => countyOf env r.student = some cid) = [] →
      county_rank env me = none) := by
  refine ⟨fun h => ⟨?_, ?_, ?_⟩, fun sid hs hrows => ?_, fun did hd hrows => ?_,
    fun cid hc hrows => ?_⟩
  · simp [school_rank, h]
  · simp [district_rank, districtOf, h]
  · simp [county_rank, countyOf, districtOf, h]
  · simp [school_rank, hs, hrows, compute_rank]
  · simp [district_rank, hd, hrows, compute_rank]
  · simp [county_rank, hc, hrows, compute_rank]

/-- Witness for `garden_rank_null_on_empty_cohort`: a student with no
school gets three `null` ranks, and a student whose school's cohort has no
`TakeLesson` rows gets a `null` school rank. -/
theorem garden_rank_null_on_empty_cohort_witness :
    (school_rank ⟨[], fun _ => none, fun _ => none, fun _ => none,
        fun _ => [], fun _ => []⟩ 0 = none) ∧
    (school_rank ⟨[], fun _ => some 5, fun _ => none, fun _ => none,
        fun _ => [], fun _ => []⟩ 0 = none) := by
  constructor
  · exact ((garden_rank_null_on_empty_cohort _ 0).1 rfl).1
  · exact (garden_rank_null_on_empty_cohort _ 0).2.1 5 rfl rfl

/-! ## Streaks (claims C6, C7, C10)

Activity dates are the distinct `TruncDate('created_at')` values of a
student's `TakeLesson` rows, modelled as a `Finset ℤ` of day numbers. -/

/-- Fuel-bounded backward walk: counts how many consecutive days, starting
at `d` and moving down, are present in `S`.  The fuel only bounds the
recursion; `S.card + 1` steps always suffice (`backWalkAux_le_card`), so
no truncation occurs at the fuel used below. -/
def backWalkAux : ℕ → Finset ℤ → ℤ → ℕ
  | 0, _, _ => 0
  | k + 1, S, d => if d ∈ S then backWalkAux k S (d - 1) + 1 else 0

/-- The dashboard's current-streak loop (viewsets.py:3117-3121):
`cur = 0; d = now.date(); while d in date_set: cur += 1; d -= 1`. -/
def currentStreak (S : Finset ℤ) (today : ℤ) : ℕ :=
  backWalkAux (S.card + 1) S today

theorem backWalkAux_mem (k : ℕ) :
    ∀ (S : Finset ℤ) (d : ℤ) (i : ℕ), i < backWalkAux k S d → d - i ∈ S := by
  induction k with
  | zero => intro S d i h; simp [backWalkAux] at h
  | succ k ih =>
      intro S d i h
      rw [backWalkAux] at h
      by_cases hd : d ∈ S
      · rw [if_pos hd] at h
        match i with
        | 0 => simpa using hd
        | j + 1 =>
            have hj : j < backWalkAux k S (d - 1) := by omega
            have := ih S (d - 1) j hj
            have heq : d - (j + 1 : ℕ) = d - 1 - j := by push_cast; ring
            rwa [heq]
      · rw [if_neg hd] at h; omega

theorem backWalkAux_le_card (k : ℕ) (S : Finset ℤ) (d : ℤ) :
    backWalkAux k S d ≤ S.card := by
  classical
  set v := backWalkAux k S d with hv
  have hmaps : ∀ i ∈ Finset.range v, d - (i : ℤ) ∈ S := by
    intro i hi
    exact backWalkAux_mem k S d i (Finset.mem_range.mp hi)
  have hinj : Set.InjOn (fun i : ℕ => d - (i : ℤ)) (Finset.range v) := by
    intro a _ b _ hab
    simp only [sub_right_inj] at hab
    exact_mod_cast hab
  have := Finset.card_le_card_of_injOn (fun i : ℕ => d - (i : ℤ)) hmaps hinj
  simpa using this

theorem backWalkAux_not_mem (k : ℕ) :
    ∀ (S : Finset ℤ) (d : ℤ), backWalkAux k S d < k →
      d - backWalkAux k S d ∉ S := by
  induction k with
  | zero => intro S d h; omega
  | succ k ih =>
      intro S d h
      rw [backWalkAux] at h ⊢
      by_cases hd : d ∈ S
      · rw [if_pos hd] at h ⊢
        have hlt : backWalkAux k S (d - 1) < k := by omega
        have := ih S (d - 1) hlt
        have heq : d - ((backWalkAux k S (d - 1) + 1 : ℕ) : ℤ) =
            d - 1 - backWalkAux k S (d - 1) := by push_cast; ring
        rwa [heq]
      · rw [if_neg hd]
        simpa using hd

theorem currentStreak_mem (S : Finset ℤ) (d : ℤ) (i : ℕ)
    (h : i < currentStreak S d) : d - i ∈ S :=
  backWalkAux_mem _ S d i h

theorem currentStreak_not_mem (S : Finset ℤ) (d : ℤ) :
    d - currentStreak S d ∉ S :=
  backWalkAux_not_mem _ S d (Nat.lt_succ_of_le (backWalkAux_le_card _ S d))

/-- The backward walk is determined by its two characteristic properties. -/
theorem currentStreak_eq_of (S : Finset ℤ) (d : ℤ) (n : ℕ)
    (hmem : ∀ i : ℕ, i < n → d - i ∈ S) (hout : d - n ∉ S) :
    currentStreak S d = n := by
  rcases lt_trichotomy (currentStreak S d) n with h | h | h
  · exact absurd (hmem _ h) (currentStreak_not_mem S d)
  · exact h
  · exact absurd (currentStreak_mem S d n h) hout

/-- C6: the current streak walks backward from `today`, counting
consecutive present days until the first gap (so every day in the counted
window is present and the day just past it is absent), and is 0 when
`today` has no activity; on `{today, today-1}` it is 2 and on `{today-2}`
alone it is 0. -/
theorem current_streak_spec (S : Finset ℤ) (today : ℤ) :
    ((∀ i : ℕ, i < currentStreak S today → today - i ∈ S) ∧
      today - currentStreak S today ∉ S) ∧
    (today ∉ S → currentStreak S today = 0) ∧
    (∀ t : ℤ, currentStreak {t, t - 1} t = 2 ∧ currentStreak {t - 2} t = 0) := by
  refine ⟨⟨currentStreak_mem S today, currentStreak_not_mem S today⟩, ?_, fun t => ⟨?_, ?_⟩⟩
  · intro h
    refine currentStreak_eq_of S today 0 (fun i hi => absurd hi (by omega)) ?_
    simp only [Nat.cast_zero, sub_zero]
    exact h
  · refine currentStreak_eq_of _ t 2 ?_ ?_
    · intro i hi
      interval_cases i
      · simp
      · simp
    · intro hmem
      simp only [Finset.mem_insert, Finset.mem_singleton] at hmem
      omega
  · refine currentStreak_eq_of _ t 0 (fun i hi => absurd hi (by omega)) ?_
    intro hmem
    simp only [Finset.mem_singleton] at hmem
    omega

/-- Witness for `current_streak_spec`: on `S = {0, -1}` and `today = 0`
the streak is 2, and `today = 5 ∉ {0, -1}` gives streak 0 on that input. -/
theorem current_streak_spec_witness :
    currentStreak {0, -1} 0 = 2 ∧ currentStreak {0, -1} 5 = 0 := by
  constructor
  · have h := ((current_streak_spec {0, -1} 0).2.2 0).1
    simpa using h
  · exact (current_streak_spec {0, -1} 5).2.1 (by decide)

/-- The next value of `current_streak` in the longest-streak loop of
`progress_garden` (viewsets.py:3570-3574):
`if prev_day is None or (day - prev_day).days == 1: current_streak += 1
else: current_streak = 1`. -/
def nextCur (prev : Option ℤ) (current : ℕ) (day : ℤ) : ℕ :=
  match prev with
  | none => current + 1
  | some p => if day - p = 1 then current + 1 else 1

/-- One iteration of the longest-streak loop (viewsets.py:3570-3577);
state is `(longest_streak, current_streak, prev_day)`, and the `longest`
component takes the running maximum. -/
def streakStep (st : ℕ × ℕ × Option ℤ) (day : ℤ) : ℕ × ℕ × Option ℤ :=
  (max st.1 (nextCur st.2.2 st.2.1 day), nextCur st.2.2 st.2.1 day, some day)

/-- The longest-streak computation of `progress_garden`
(viewsets.py:3566-3577), run over the ascending-sorted list of distinct
activity dates. -/
def longestStreak (l : List ℤ) : ℕ :=
  (l.foldl streakStep (0, 0, none)).1

/-- Fuel-bounded forward walk: how many consecutive days starting at `d`
and moving up are present in `S` (mirror image of `backWalkAux`). -/
def runAux : ℕ → Finset ℤ → ℤ → ℕ
  | 0, _, _ => 0
  | k + 1, S, d => if d ∈ S then runAux k S (d + 1) + 1 else 0

/-- Modelled from the claim's words: the length of the run of consecutive
calendar days of `S` that starts at `d`. -/
def runFrom (S : Finset ℤ) (d : ℤ) : ℕ := runAux (S.card + 1) S d

/-- Modelled from the claim's words: the maximum length of a run of
consecutive calendar days present in `S` (0 for the empty set). -/
def maxRun (S : Finset ℤ) : ℕ := S.sup (runFrom S)

theorem runAux_mem (k : ℕ) :
    ∀ (S : Finset ℤ) (d : ℤ) (i : ℕ), i < runAux k S d → d + i ∈ S := by
  induction k with
  | zero => intro S d i h; simp [runAux] at h
  | succ k ih =>
      intro S d i h
      rw [runAux] at h
      by_cases hd : d ∈ S
      · rw [if_pos hd] at h
        match i with
        | 0 => simpa using hd
        | j + 1 =>
            have hj : j < runAux k S (d + 1) := by omega
            have := ih S (d + 1) j hj
            have heq : d + (j + 1 : ℕ) = d + 1 + j := by push_cast; ring
            rwa [heq]
      · rw [if_neg hd] at h; omega

theorem runAux_le_card (k : ℕ) (S : Finset ℤ) (d : ℤ) :
    runAux k S d ≤ S.card := by
  classical
  have hmaps : ∀ i ∈ Finset.range (runAux k S d), d + (i : ℤ) ∈ S := by
    intro i hi
    exact runAux_mem k S d i (Finset.mem_range.mp hi)
  have hinj : Set.InjOn (fun i : ℕ => d + (i : ℤ)) (Finset.range (runAux k S d)) := by
    intro a _ b _ hab
    simp only [add_right_inj] at hab
    exact_mod_cast hab
  have := Finset.card_le_card_of_injOn (fun i : ℕ => d + (i : ℤ)) hmaps hinj
  simpa using this

theorem runAux_not_mem (k : ℕ) :
    ∀ (S : Finset ℤ) (d : ℤ), runAux k S d < k → d + runAux k S d ∉ S := by
  induction k with
  | zero => intro S d h; omega
  | succ k ih =>
      intro S d h
      rw [runAux] at h ⊢
      by_cases hd : d ∈ S
      · rw [if_pos hd] at h ⊢
        have hlt : runAux k S (d + 1) < k := by omega
        have := ih S (d + 1) hlt
        have heq : d + ((runAux k S (d + 1) + 1 : ℕ) : ℤ) =
            d + 1 + runAux k S (d + 1) := by push_cast; ring
        rwa [heq]
      · rw [if_neg hd]
        simpa using hd

theorem runFrom_mem (S : Finset ℤ) (d : ℤ) (i : ℕ)
    (h : i < runFrom S d) : d + i ∈ S :=
  runAux_mem _ S d i h

theorem runFrom_not_mem (S : Finset ℤ) (d : ℤ) : d + runFrom S d ∉ S :=
  runAux_not_mem _ S d (Nat.lt_succ_of_le (runAux_le_card _ S d))

theorem runFrom_eq_of (S : Finset ℤ) (d : ℤ) (n : ℕ)
    (hmem : ∀ i : ℕ, i < n → d + i ∈ S) (hout : d + n ∉ S) :
    runFrom S d = n := by
  rcases lt_trichotomy (runFrom S d) n with h | h | h
  · exact absurd (hmem _ h) (runFrom_not_mem S d)
  · exact h
  · exact absurd (runFrom_mem S d n h) hout

/-- The maximal prefix of `xs` that extends the day `p` as a run of
consecutive days: its length and the remaining suffix. -/
def peelRun : ℤ → List ℤ → ℕ × List ℤ
  | _, [] => (0, [])
  | p, x :: xs =>
      if x = p + 1 then ((peelRun x xs).1 + 1, (peelRun x xs).2)
      else (0, x :: xs)

theorem peelRun_suffix : ∀ (xs : List ℤ) (p : ℤ), (peelRun p xs).2 <:+ xs := by
  intro xs
  induction xs with
  | nil => intro p; simp [peelRun]
  | cons x xs ih =>
      intro p
      by_cases hx : x = p + 1
      · simp only [peelRun, if_pos hx]
        exact (ih x).trans (List.suffix_cons x xs)
      · simp [peelRun, if_neg hx]

theorem peelRun_chain_mem : ∀ (xs : List ℤ) (p : ℤ) (i : ℕ),
    i < (peelRun p xs).1 → p + 1 + i ∈ xs := by
  intro xs
  induction xs with
  | nil => intro p i h; simp [peelRun] at h
  | cons x xs ih =>
      intro p i h
      by_cases hx : x = p + 1
      · simp only [peelRun, if_pos hx] at h
        match i with
        | 0 => simp [hx]
        | j + 1 =>
            have hj : j < (peelRun x xs).1 := by omega
            have := ih x j hj
            have heq : p + 1 + ((j + 1 : ℕ) : ℤ) = x + 1 + j := by
              rw [hx]; push_cast; ring
            rw [heq]
            exact List.mem_cons_of_mem x this
      · simp [peelRun, if_neg hx] at h

theorem peelRun_mem_or : ∀ (xs : List ℤ) (p : ℤ) (y : ℤ), y ∈ xs →
    y ∈ (peelRun p xs).2 ∨ (p < y ∧ y ≤ p + (peelRun p xs).1) := by
  intro xs
  induction xs with
  | nil => intro p y h; simp at h
  | cons x xs ih =>
      intro p y hy
      by_cases hx : x = p + 1
      · simp only [peelRun, if_pos hx]
        rcases List.mem_cons.mp hy with h | h
        · right; subst h; constructor <;> [omega; (push_cast; omega)]
        · rcases ih x y h with h' | h'
          · exact Or.inl h'
          · right
            refine ⟨by omega, ?_⟩
            have := h'.2
            push_cast
            omega
      · simp only [peelRun, if_neg hx]
        exact Or.inl hy

theorem peelRun_rest_gt : ∀ (xs : List ℤ) (p : ℤ), xs.Sorted (· < ·) →
    (∀ y ∈ xs, p < y) →
    ∀ y ∈ (peelRun p xs).2, p + (peelRun p xs).1 + 1 < y := by
  intro xs
  induction xs with
  | nil => intro p _ _ y h; simp [peelRun] at h
  | cons x xs ih =>
      intro p hs hgt y hy
      rw [List.sorted_cons] at hs
      by_cases hx : x = p + 1
      · simp only [peelRun, if_pos hx] at hy ⊢
        have := ih x hs.2 hs.1 y hy
        push_cast
        omega
      · simp only [peelRun, if_neg hx] at hy ⊢
        rcases List.mem_cons.mp hy with h | h
        · have hpx : p < x := hgt x (List.mem_cons_self x xs)
          push_cast
          omega
        · have hpx : p < x := hgt x (List.mem_cons_self x xs)
          have hxy : x < y := hs.1 y h
          push_cast
          omega

/-- The `longest` accumulator of the streak fold only ever joins the rest
of the computation through a final `max`. -/
theorem streakShift : ∀ (xs : List ℤ) (b c : ℕ) (pr : Option ℤ),
    (xs.foldl streakStep (b, c, pr)).1 =
      max b ((xs.foldl streakStep (0, c, pr)).1) := by
  intro xs
  induction xs with
  | nil => intro b c pr; simp
  | cons x xs ih =>
      intro b c pr
      simp only [List.foldl_cons, streakStep]
      rw [ih (max b (nextCur pr c x)), ih (max 0 (nextCur pr c x))]
      simp [max_assoc]

/-- Folding the streak loop through the maximal consecutive-run prefix:
the current streak grows by the run's length and the maximum absorbs it. -/
theorem streakRun : ∀ (xs : List ℤ) (p : ℤ) (b c : ℕ), c ≤ b →
    xs.foldl streakStep (b, c, some p) =
      (peelRun p xs).2.foldl streakStep
        (max b (c + (peelRun p xs).1), c + (peelRun p xs).1,
          some (p + (peelRun p xs).1)) := by
  intro xs
  induction xs with
  | nil =>
      intro p b c hcb
      simp [peelRun, max_eq_left hcb]
  | cons x xs ih =>
      intro p b c hcb
      by_cases hx : x = p + 1
      · simp only [peelRun, if_pos hx, List.foldl_cons, streakStep]
        have hcur : nextCur (some p) c x = c + 1 := by
          simp [nextCur, show x - p = 1 by omega]
        rw [hcur]
        rw [ih x (max b (c + 1)) (c + 1) (le_max_right b (c + 1))]
        have h1 : max (max b (c + 1)) (c + 1 + (peelRun x xs).1) =
            max b (c + ((peelRun x xs).1 + 1)) := by
          omega
        have h2 : c + 1 + (peelRun x xs).1 = c + ((peelRun x xs).1 + 1) := by omega
        have h3 : x + (peelRun x xs).1 = p + ((peelRun x xs).1 + 1) := by
          omega
        rw [h1, h2, h3]
        rfl
      · simp only [peelRun, if_neg hx]
        simp [max_eq_left hcb]

/-- A gap before the next date resets the current streak, which is the
same as starting the loop afresh with only the `longest` value kept. -/
theorem streakGapReset (x : ℤ) (xs : List ℤ) (b c : ℕ) (p : ℤ)
    (hgap : x - p ≠ 1) :
    (x :: xs).foldl streakStep (b, c, some p) =
      (x :: xs).foldl streakStep (b, 0, none) := by
  simp only [List.foldl_cons, streakStep]
  have h1 : nextCur (some p) c x = 1 := by simp [nextCur, hgap]
  have h2 : nextCur none 0 x = 1 := by simp [nextCur]
  rw [h1, h2]

theorem peel_mem_S (xs : List ℤ) (x : ℤ) (i : ℕ) (hi : i ≤ (peelRun x xs).1) :
    x + (i : ℤ) ∈ (x :: xs).toFinset := by
  match i with
  | 0 => simp
  | j + 1 =>
      have hmem := peelRun_chain_mem xs x j (by omega)
      have heq : x + ((j + 1 : ℕ) : ℤ) = x + 1 + j := by push_cast; ring
      rw [heq, List.mem_toFinset]
      exact List.mem_cons_of_mem _ hmem

theorem peel_top_not_mem (xs : List ℤ) (x : ℤ) (hs : (x :: xs).Sorted (· < ·)) :
    x + (((peelRun x xs).1 + 1 : ℕ) : ℤ) ∉ (x :: xs).toFinset := by
  have hsc := List.sorted_cons.mp hs
  intro hmem
  rw [List.mem_toFinset] at hmem
  rcases List.mem_cons.mp hmem with h | h
  · omega
  · rcases peelRun_mem_or xs x _ h with h' | h'
    · have := peelRun_rest_gt xs x hsc.2 hsc.1 _ h'
      omega
    · omega

theorem peel_mem_iff_rest (xs : List ℤ) (x : ℤ) (hs : (x :: xs).Sorted (· < ·))
    (y : ℤ) (hy : x + (peelRun x xs).1 + 1 ≤ y) :
    y ∈ (x :: xs).toFinset ↔ y ∈ (peelRun x xs).2.toFinset := by
  have hsc := List.sorted_cons.mp hs
  rw [List.mem_toFinset, List.mem_toFinset]
  constructor
  · intro h
    rcases List.mem_cons.mp h with h | h
    · omega
    · rcases peelRun_mem_or xs x y h with h' | h'
      · exact h'
      · omega
  · intro h
    exact List.mem_cons_of_mem _ ((peelRun_suffix xs x).subset h)

theorem maxRun_peel (xs : List ℤ) (x : ℤ) (hs : (x :: xs).Sorted (· < ·)) :
    maxRun (x :: xs).toFinset =
      max ((peelRun x xs).1 + 1) (maxRun (peelRun x xs).2.toFinset) := by
  classical
  have hsc := List.sorted_cons.mp hs
  set n := (peelRun x xs).1 with hn
  set S := (x :: xs).toFinset with hS
  set R := (peelRun x xs).2.toFinset with hR
  have hx_run : runFrom S x = n + 1 := by
    refine runFrom_eq_of S x (n + 1) (fun i hi => peel_mem_S xs x i (by omega)) ?_
    exact peel_top_not_mem xs x hs
  have hrest_run : ∀ d ∈ R, runFrom S d = runFrom R d := by
    intro d hd
    have hd_gt : x + (n : ℤ) + 1 < d :=
      peelRun_rest_gt xs x hsc.2 hsc.1 d (List.mem_toFinset.mp hd)
    refine runFrom_eq_of S d (runFrom R d) ?_ ?_
    · intro i hi
      have hmem := runFrom_mem R d i hi
      exact (peel_mem_iff_rest xs x hs (d + i) (by omega)).mpr hmem
    · intro hmem
      have h := (peel_mem_iff_rest xs x hs (d + runFrom R d) (by omega)).mp hmem
      exact runFrom_not_mem R d h
  have hub : ∀ d ∈ S, runFrom S d ≤ max (n + 1) (maxRun R) := by
    intro d hd
    rw [hS, List.mem_toFinset] at hd
    rcases List.mem_cons.mp hd with rfl | hd'
    · rw [hx_run]; exact le_max_left _ _
    · rcases peelRun_mem_or xs x d hd' with h' | h'
      · have hdR : d ∈ R := List.mem_toFinset.mpr h'
        rw [hrest_run d hdR]
        exact le_trans (Finset.le_sup hdR) (le_max_right _ _)
      · refine le_trans ?_ (le_max_left _ _)
        by_contra hcon
        push_neg at hcon
        have hlt : (x + (n : ℤ) + 1 - d).toNat < runFrom S d := by omega
        have hmem := runFrom_mem S d _ hlt
        have heq : d + ((x + (n : ℤ) + 1 - d).toNat : ℤ) = x + ((n + 1 : ℕ) : ℤ) := by
          push_cast; omega
        rw [heq] at hmem
        exact peel_top_not_mem xs x hs hmem
  have hlb1 : n + 1 ≤ maxRun S := by
    have hxS : x ∈ S := by rw [hS, List.mem_toFinset]; exact List.mem_cons_self x xs
    have h := Finset.le_sup (f := runFrom S) hxS
    rwa [hx_run] at h
  have hlb2 : maxRun R ≤ maxRun S := by
    refine Finset.sup_le ?_
    intro d hd
    rw [← hrest_run d hd]
    refine Finset.le_sup ?_
    rw [hS, List.mem_toFinset]
    exact List.mem_cons_of_mem _ ((peelRun_suffix xs x).subset (List.mem_toFinset.mp hd))
  exact le_antisymm (Finset.sup_le hub) (max_le hlb1 hlb2)

/-- Over any strictly ascending date list, the longest-streak scan of
`progress_garden` computes exactly the maximum consecutive-run length. -/
theorem longestStreak_sorted : ∀ (N : ℕ) (l : List ℤ), l.length ≤ N →
    l.Sorted (· < ·) → longestStreak l = maxRun l.toFinset := by
  intro N
  induction N with
  | zero =>
      intro l hl _
      have hnil : l = [] := List.length_eq_zero.mp (Nat.le_zero.mp hl)
      subst hnil
      simp [longestStreak, maxRun]
  | succ N ih =>
      intro l hl hs
      match l with
      | [] => simp [longestStreak, maxRun]
      | x :: xs =>
          have hsc := List.sorted_cons.mp hs
          have hstep : longestStreak (x :: xs) =
              (xs.foldl streakStep (1, 1, some x)).1 := by
            simp [longestStreak, streakStep, nextCur]
          rw [hstep, streakRun xs x 1 1 le_rfl]
          have hmax : max 1 (1 + (peelRun x xs).1) = 1 + (peelRun x xs).1 := by omega
          rw [hmax, maxRun_peel xs x hs]
          rcases hhr : (peelRun x xs).2 with _ | ⟨y, ys⟩
          · simp only [List.foldl_nil, List.toFinset_nil]
            have hmr : maxRun ∅ = 0 := by simp [maxRun]
            rw [hmr]
            omega
          · have hgap : y - (x + ((peelRun x xs).1 : ℤ)) ≠ 1 := by
              have hy : x + ((peelRun x xs).1 : ℤ) + 1 < y := by
                refine peelRun_rest_gt xs x hsc.2 hsc.1 y ?_
                rw [hhr]; exact List.mem_cons_self y ys
              omega
            rw [streakGapReset y ys _ _ _ hgap, streakShift]
            have hfold : ((y :: ys).foldl streakStep (0, 0, none)).1 =
                longestStreak (y :: ys) := rfl
            rw [hfold]
            have hsub : List.Sublist (y :: ys) xs := by
              rw [← hhr]; exact (peelRun_suffix xs x).sublist
            have hlen : (y :: ys).length ≤ N := by
              have h1 := hsub.length_le
              simp only [List.length_cons] at hl
              omega
            have hsorted : (y :: ys).Sorted (· < ·) := hsc.2.sublist hsub
            rw [ih (y :: ys) hlen hsorted]
            omega

/-- C7: run over the ascending-sorted list of a student's distinct
activity dates, the longest-streak scan returns the maximum length of a
run of consecutive calendar days; on `[d, d+1, d+2, d+5]` it returns 3 and
on the empty list 0. -/
theorem longest_streak_spec (S : Finset ℤ) :
    longestStreak (S.sort (· ≤ ·)) = maxRun S ∧
    (∀ d : ℤ, longestStreak [d, d + 1, d + 2, d + 5] = 3) ∧
    longestStreak ([] : List ℤ) = 0 := by
  refine ⟨?_, ?_, rfl⟩
  · have hsorted : (S.sort (· ≤ ·)).Sorted (· < ·) := S.sort_sorted_lt
    have h := longestStreak_sorted (S.sort (· ≤ ·)).length _ le_rfl hsorted
    rwa [Finset.sort_toFinset] at h
  · intro d
    have e1 : d + 1 - d = 1 := by ring
    have e2 : d + 2 - (d + 1) = 1 := by ring
    have e3 : d + 5 - (d + 2) = 3 := by ring
    simp [longestStreak, streakStep, nextCur, e1, e2, e3]

/-- One iteration of the `points_this_month` loop (viewsets.py:3128-3132):
`if (month_dates[i+1] - month_dates[i]).days == 1: streak += 1
else: streak = 1`; the accumulator also carries the previous date. -/
def pointsStep (acc : ℕ × ℤ) (day : ℤ) : ℕ × ℤ :=
  if day - acc.2 = 1 then (acc.1 + 1, day) else (1, day)

/-- The `recent_streak` value of viewsets.py:3125-3133: 0 for an empty
month, else the loop starting at `streak = 1` — the length of the
trailing consecutive run of the ascending-sorted month dates. -/
def recentStreak : List ℤ → ℕ
  | [] => 0
  | x :: xs => (xs.foldl pointsStep (1, x)).1

/-- `points_this_month` (viewsets.py:3123-3134): the activity dates are
filtered to the current calendar month (the `d.month == now.month and
d.year == now.year` test, modelled by the predicate `inMonth`), sorted
ascending, and the final streak value is multiplied by 15. -/
def points_this_month (S : Finset ℤ) (inMonth : ℤ → Bool) : ℕ :=
  recentStreak ((S.filter (fun d => inMonth d)).sort (· ≤ ·)) * 15

/-- Modelled from the claim's words: the length of the run of consecutive
active days that ends at the most recent active day of `F` (0 when `F` is
empty), expressed through the backward day-by-day walk. -/
def trailingRunSpec (F : Finset ℤ) : ℕ :=
  if h : F.Nonempty then backWalkAux (F.card + 1) F (F.max' h) else 0

theorem pointsRun : ∀ (xs : List ℤ) (p : ℤ) (c : ℕ),
    xs.foldl pointsStep (c, p) =
      (peelRun p xs).2.foldl pointsStep
        (c + (peelRun p xs).1, p + (peelRun p xs).1) := by
  intro xs
  induction xs with
  | nil => intro p c; simp [peelRun]
  | cons x xs ih =>
      intro p c
      by_cases hx : x = p + 1
      · simp only [peelRun, if_pos hx, List.foldl_cons]
        have hstep : pointsStep (c, p) x = (c + 1, x) := by
          simp [pointsStep, show x - p = 1 by omega]
        rw [hstep, ih x (c + 1)]
        have h1 : c + 1 + (peelRun x xs).1 = c + ((peelRun x xs).1 + 1) := by omega
        have h2 : x + ((peelRun x xs).1 : ℤ) = p + (((peelRun x xs).1 : ℤ) + 1) := by
          omega
        rw [h1, h2]
        rfl
      · simp [peelRun, if_neg hx]

theorem pointsGapReset (y : ℤ) (ys : List ℤ) (c : ℕ) (p : ℤ)
    (hgap : y - p ≠ 1) :
    (y :: ys).foldl pointsStep (c, p) = ys.foldl pointsStep (1, y) := by
  simp [pointsStep, hgap]

/-- Over any strictly ascending date list, the `points_this_month` loop
returns exactly the length of the trailing consecutive run, i.e. the
backward walk from the most recent date. -/
theorem recentStreak_sorted : ∀ (N : ℕ) (l : List ℤ), l.length ≤ N →
    l.Sorted (· < ·) → recentStreak l = trailingRunSpec l.toFinset := by
  intro N
  induction N with
  | zero =>
      intro l hl _
      have hnil : l = [] := List.length_eq_zero.mp (Nat.le_zero.mp hl)
      subst hnil
      simp [recentStreak, trailingRunSpec]
  | succ N ih =>
      intro l hl hs
      match l with
      | [] => simp [recentStreak, trailingRunSpec]
      | x :: xs =>
          have hsc := List.sorted_cons.mp hs
          have h0 : recentStreak (x :: xs) =
              ((peelRun x xs).2.foldl pointsStep
                (1 + (peelRun x xs).1, x + (peelRun x xs).1)).1 := by
            show (xs.foldl pointsStep (1, x)).1 = _
            rw [pointsRun xs x 1]
          rw [h0]
          set n := (peelRun x xs).1 with hn
          rcases hhr : (peelRun x xs).2 with _ | ⟨y, ys⟩
          · simp only [List.foldl_nil]
            have hxn_mem : x + (n : ℤ) ∈ (x :: xs).toFinset := peel_mem_S xs x n le_rfl
            have hne : (x :: xs).toFinset.Nonempty := ⟨_, hxn_mem⟩
            have hmax : (x :: xs).toFinset.max' hne = x + n := by
              refine le_antisymm (Finset.max'_le _ _ _ ?_) (Finset.le_max' _ _ hxn_mem)
              intro z hz
              rw [List.mem_toFinset] at hz
              rcases List.mem_cons.mp hz with rfl | hz'
              · omega
              · rcases peelRun_mem_or xs x z hz' with h' | h'
                · rw [hhr] at h'; simp at h'
                · omega
            have hval : currentStreak (x :: xs).toFinset (x + n) = n + 1 := by
              refine currentStreak_eq_of _ _ (n + 1) ?_ ?_
              · intro i hi
                have heq : x + (n : ℤ) - i = x + ((n - i : ℕ) : ℤ) := by
                  have : i ≤ n := by omega
                  omega
                rw [heq]
                exact peel_mem_S xs x (n - i) (by omega)
              · intro hmem
                rw [List.mem_toFinset] at hmem
                rcases List.mem_cons.mp hmem with h | h
                · omega
                · have := hsc.1 _ h
                  omega
            have htr : trailingRunSpec (x :: xs).toFinset = n + 1 := by
              unfold trailingRunSpec
              rw [dif_pos hne, hmax]
              exact hval
            show 1 + n = trailingRunSpec (x :: xs).toFinset
            rw [htr]
            omega
          · have hy_gt : x + (n : ℤ) + 1 < y := by
              refine peelRun_rest_gt xs x hsc.2 hsc.1 y ?_
              rw [hhr]; exact List.mem_cons_self y ys
            have hgap : y - (x + (n : ℤ)) ≠ 1 := by omega
            rw [pointsGapReset y ys _ _ hgap]
            have hrec : (ys.foldl pointsStep (1, y)).1 = recentStreak (y :: ys) := rfl
            rw [hrec]
            have hsub : List.Sublist (y :: ys) xs := by
              rw [← hhr]; exact (peelRun_suffix xs x).sublist
            have hlen : (y :: ys).length ≤ N := by
              have h1 := hsub.length_le
              simp only [List.length_cons] at hl
              omega
            have hsorted : (y :: ys).Sorted (· < ·) := hsc.2.sublist hsub
            rw [ih (y :: ys) hlen hsorted]
            set R := (y :: ys).toFinset with hRdef
            have hyR : y ∈ R := by
              rw [hRdef, List.mem_toFinset]; exact List.mem_cons_self y ys
            have hneR : R.Nonempty := ⟨y, hyR⟩
            have hRsubF : ∀ z ∈ R, z ∈ (x :: xs).toFinset := by
              intro z hz
              rw [hRdef, List.mem_toFinset] at hz
              rw [List.mem_toFinset]
              refine List.mem_cons_of_mem _ ?_
              refine (peelRun_suffix xs x).subset ?_
              rw [hhr]; exact hz
            have hneF : (x :: xs).toFinset.Nonempty := ⟨y, hRsubF y hyR⟩
            have hRgt : ∀ z ∈ R, x + (n : ℤ) + 1 < z := by
              intro z hz
              rw [hRdef, List.mem_toFinset] at hz
              refine peelRun_rest_gt xs x hsc.2 hsc.1 z ?_
              rw [hhr]; exact hz
            have hmaxFR : (x :: xs).toFinset.max' hneF = R.max' hneR := by
              refine le_antisymm (Finset.max'_le _ _ _ ?_)
                (Finset.le_max' _ _ (hRsubF _ (R.max'_mem hneR)))
              intro z hz
              rw [List.mem_toFinset] at hz
              rcases List.mem_cons.mp hz with rfl | hz'
              · have := Finset.le_max' R y hyR
                omega
              · rcases peelRun_mem_or xs x z hz' with h' | h'
                · refine Finset.le_max' R z ?_
                  rw [hRdef, List.mem_toFinset]
                  rw [hhr] at h'
                  exact h'
                · have := Finset.le_max' R y hyR
                  omega
            set m := R.max' hneR with hm
            have hv1 : 1 ≤ currentStreak R m := by
              by_contra hcon
              push_neg at hcon
              have h0' : currentStreak R m = 0 := by omega
              have hnm := currentStreak_not_mem R m
              rw [h0'] at hnm
              simp only [Nat.cast_zero, sub_zero] at hnm
              exact hnm (R.max'_mem hneR)
            have hAbove : m - ((currentStreak R m - 1 : ℕ) : ℤ) ∈ R :=
              currentStreak_mem R m (currentStreak R m - 1) (by omega)
            have hge : x + (n : ℤ) + 1 ≤ m - (currentStreak R m : ℤ) := by
              have := hRgt _ hAbove
              omega
            have hvalF : currentStreak (x :: xs).toFinset m = currentStreak R m := by
              refine currentStreak_eq_of _ _ (currentStreak R m) ?_ ?_
              · intro i hi
                exact hRsubF _ (currentStreak_mem R m i hi)
              · intro hmem
                rw [List.mem_toFinset] at hmem
                rcases List.mem_cons.mp hmem with h | h
                · omega
                · rcases peelRun_mem_or xs x _ h with h' | h'
                  · rw [hhr] at h'
                    have hinR : m - ((currentStreak R m : ℕ) : ℤ) ∈ R := by
                      rw [hRdef, List.mem_toFinset]
                      exact h'
                    exact currentStreak_not_mem R m hinR
                  · omega
            have htrR : trailingRunSpec R = currentStreak R m := by
              unfold trailingRunSpec
              rw [dif_pos hneR]
              rfl
            have htrF : trailingRunSpec (x :: xs).toFinset = currentStreak R m := by
              unfold trailingRunSpec
              rw [dif_pos hneF, hmaxFR]
              exact hvalF
            rw [htrR, htrF]

/-- C10: `points_this_month` equals 15 times the length of the run of
consecutive active days ending at the most recent active day of the
current calendar month (only that month's days counted), and is 0 when
the student has no active day in the month. -/
theorem points_this_month_spec (S : Finset ℤ) (inMonth : ℤ → Bool) :
    points_this_month S inMonth =
      15 * trailingRunSpec (S.filter (fun d => inMonth d)) ∧
    (S.filter (fun d => inMonth d) = ∅ → points_this_month S inMonth = 0) := by
  constructor
  · unfold points_this_month
    have hsorted : ((S.filter (fun d => inMonth d)).sort (· ≤ ·)).Sorted (· < ·) :=
      Finset.sort_sorted_lt _
    have h := recentStreak_sorted
      ((S.filter (fun d => inMonth d)).sort (· ≤ ·)).length _ le_rfl hsorted
    rw [Finset.sort_toFinset] at h
    rw [h]
    omega
  · intro hF
    unfold points_this_month
    rw [hF]
    simp [recentStreak]

/-- Witness for `points_this_month_spec`: with activity only outside the
current month the filter is empty and the points are 0. -/
theorem points_this_month_spec_witness :
    points_this_month {0} (fun _ => false) = 0 := by
  refine (points_this_month_spec {0} (fun _ => false)).2 ?_
  simp

/-! ## Dashboard cache (claim C5)

`DashboardViewSet.list` wraps the whole computation in a per-user cache:
`cached = cache.get(f"dashboard:{user.id}"); if cached: return
Response(cached)` (viewsets.py:3042-3046) and, after computing `data`,
`cache.set(cache_key, data, timeout=120)` (viewsets.py:3280-3281).  The
cache is a partial map from keys to stored payloads; `get` returning
`some` stands for an entry that is present and unexpired, i.e. a request
within the TTL window (the stored payload is a nonempty dict, so Python's
truthiness test on it always passes).  The payload computation is an
arbitrary function of the underlying lesson/grade data, which may change
between requests. -/

/-- One dashboard request (viewsets.py:3036-3281 control flow around the
cache): on a hit return the stored blob verbatim and leave the cache
unchanged; on a miss compute from the current data, store, and return. -/
def dashboard_request {K B D : Type} [DecidableEq K] (compute : D → B)
    (key : K) (cache : K → Option B) (data : D) : B × (K → Option B) :=
  match cache key with
  | some blob => (blob, cache)
  | none =>
      let blob := compute data
      (blob, fun k => if k = key then some blob else cache k)

/-- C5: the dashboard cache is read-through — a hit returns the stored
blob verbatim without recomputation, a miss computes and stores under the
key, and two requests within the TTL window (the second request still sees
the first one's entry) return identical payloads even if the underlying
data changed from `d1` to `d2` in between. -/
theorem dashboard_cache_read_through {K B D : Type} [DecidableEq K]
    (compute : D → B) (key : K) (cache : K → Option B) (d1 d2 : D) :
    (∀ b, cache key = some b →
      dashboard_request compute key cache d1 = (b, cache)) ∧
    (cache key = none →
      dashboard_request compute key cache d1 =
        (compute d1, fun k => if k = key then some (compute d1) else cache k)) ∧
    (dashboard_request compute key
        (dashboard_request compute key cache d1).2 d2).1 =
      (dashboard_request compute key cache d1).1 := by
  refine ⟨?_, ?_, ?_⟩
  · intro b hb
    simp [dashboard_request, hb]
  · intro hb
    simp [dashboard_request, hb]
  · cases hc : cache key with
    | some b => simp [dashboard_request, hc]
    | none => simp [dashboard_request, hc]

/-- Witness for `dashboard_cache_read_through`: starting from an empty
cache, a request computes and stores its payload. -/
theorem dashboard_cache_read_through_witness :
    dashboard_request (fun d : ℕ => d) 0 (fun _ => none) 5 =
      (5, fun k => if k = 0 then some 5 else none) :=
  (dashboard_cache_read_through (fun d : ℕ => d) 0 (fun _ => none) 5 5).2.1 rfl

/-! ## Engagement fallback rank (claim C3)

When no assessment badge qualifies, `DashboardViewSet.list`
(viewsets.py:3241-3261) falls back to an engagement rank.  Note the
asymmetry in the source: `my_taken = taken_qs.count()` counts the
student's `TakeLesson` rows restricted to lessons whose subject has the
student's grade (`taken_qs`, viewsets.py:3062), while the peer aggregation
(viewsets.py:3245-3251) groups ALL `TakeLesson` rows of every same-grade
student — with no restriction on the lesson's grade, and without excluding
the student themself from the grouping. -/

/-- The student/lesson attributes the engagement rank reads:
`Student.grade` and the grade of a lesson's subject. -/
structure EngEnv where
  rows : List TakeRow
  studentGrade : ℕ → ℕ
  lessonGrade : ℕ → ℕ

/-- `my_taken = taken_qs.count()` (viewsets.py:3243, `taken_qs` filtered
at viewsets.py:3062 by `student=student, lesson__subject__grade=student.grade`). -/
def my_taken (e : EngEnv) (s : ℕ) : ℕ :=
  (e.rows.filter (fun r =>
    r.student = s ∧ e.lessonGrade r.lesson = e.studentGrade s)).length

/-- The `better` count (viewsets.py:3245-3251):
`TakeLesson.objects.filter(student__grade=student.grade).values('student')
.annotate(c=Count('id')).filter(c__gt=my_taken).count()`. -/
def better_count (e : EngEnv) (s : ℕ) : ℕ :=
  let graded := e.rows.filter (fun r => e.studentGrade r.student = e.studentGrade s)
  ((graded.map TakeRow.student).toFinset.filter
    (fun p => (graded.filter (fun r => r.student = p)).length > my_taken e s)).card

/-- The engagement branch (viewsets.py:3243-3261): nothing at zero taken
lessons; otherwise `rank_val = better + 1`, shown only when `≤ 20`. -/
def engagement_rank (e : EngEnv) (s : ℕ) : Option ℕ :=
  if 0 < my_taken e s then
    if better_count e s + 1 ≤ 20 then some (better_count e s + 1) else none
  else none

/-- Modelled from the claim's words: the number of distinct lessons a
student has taken. -/
def distinct_lessons (e : EngEnv) (s : ℕ) : ℕ :=
  ((e.rows.filter (fun r => r.student = s)).map TakeRow.lesson).toFinset.card

/-- Modelled from the claim's words: `1 + (count of same-grade peers whose
distinct-lesson-count strictly exceeds the student's)`. -/
def claim_rank (e : EngEnv) (s : ℕ) : ℕ :=
  (((e.rows.map TakeRow.student).toFinset.erase s).filter
    (fun p => e.studentGrade p = e.studentGrade s ∧
      distinct_lessons e p > distinct_lessons e s)).card + 1

/-- A reachable state separating the code from the claim: student 0 (grade
0) has taken lesson 10 (a grade-0 lesson) and lesson 11 (a lesson of
another grade). -/
def engCounterEnv : EngEnv :=
  ⟨[⟨0, 10⟩, ⟨0, 11⟩], fun _ => 0, fun l => if l = 11 then 1 else 0⟩

/-- C3 counterexample: for a student who took one lesson of their own
grade and one of another grade, the code ranks them 2nd (their own
unrestricted row count 2 exceeds their grade-restricted count 1, so they
count as their own "better" peer), while the claim's formula — 1 + the
number of other same-grade students with strictly more distinct lessons —
gives 1st. -/
theorem engagement_rank_counterexample :
    engagement_rank engCounterEnv 0 = some 2 ∧ claim_rank engCounterEnv 0 = 1 := by
  constructor <;> decide

theorem rowcount_eq_distinct (e : EngEnv) (hdup : e.rows.Nodup) (p : ℕ) :
    (e.rows.filter (fun r => r.student = p)).length = distinct_lessons e p := by
  unfold distinct_lessons
  have hnd : ((e.rows.filter (fun r => r.student = p)).map TakeRow.lesson).Nodup := by
    refine List.Nodup.map_on ?_ (hdup.filter _)
    intro r1 h1 r2 h2 hl
    have hs1 := (List.mem_filter.mp h1).2
    have hs2 := (List.mem_filter.mp h2).2
    simp only [decide_eq_true_eq] at hs1 hs2
    cases r1
    cases r2
    simp_all
  rw [List.toFinset_card_of_nodup hnd, List.length_map]

theorem my_taken_eq_distinct (e : EngEnv) (s : ℕ) (hdup : e.rows.Nodup)
    (hgr : ∀ r ∈ e.rows, e.studentGrade r.student = e.studentGrade s →
      e.lessonGrade r.lesson = e.studentGrade r.student) :
    my_taken e s = distinct_lessons e s := by
  unfold my_taken
  have hfc : e.rows.filter (fun r =>
        r.student = s ∧ e.lessonGrade r.lesson = e.studentGrade s)
      = e.rows.filter (fun r => r.student = s) := by
    apply List.filter_congr
    intro r hr
    by_cases hrs : r.student = s
    · have hgrade : e.studentGrade r.student = e.studentGrade s := by rw [hrs]
      have hl := hgr r hr hgrade
      rw [hgrade] at hl
      simp [hrs, hl]
    · simp [hrs]
  rw [hfc, rowcount_eq_distinct e hdup s]

theorem better_count_eq (e : EngEnv) (s : ℕ) (hdup : e.rows.Nodup)
    (hgr : ∀ r ∈ e.rows, e.studentGrade r.student = e.studentGrade s →
      e.lessonGrade r.lesson = e.studentGrade r.student) :
    better_count e s =
      (((e.rows.map TakeRow.student).toFinset.erase s).filter
        (fun p => e.studentGrade p = e.studentGrade s ∧
          distinct_lessons e p > distinct_lessons e s)).card := by
  have hmt := my_taken_eq_distinct e s hdup hgr
  have hlen : ∀ p : ℕ, e.studentGrade p = e.studentGrade s →
      ((e.rows.filter (fun r => e.studentGrade r.student = e.studentGrade s)).filter
        (fun r => r.student = p)).length = distinct_lessons e p := by
    intro p hp
    rw [List.filter_filter]
    have hfc : e.rows.filter (fun r =>
          decide (r.student = p) &&
            decide (e.studentGrade r.student = e.studentGrade s))
        = e.rows.filter (fun r => r.student = p) := by
      apply List.filter_congr
      intro r hr
      by_cases hrp : r.student = p
      · simp [hrp, hp]
      · simp [hrp]
    rw [hfc, rowcount_eq_distinct e hdup p]
  unfold better_count
  refine congrArg Finset.card ?_
  ext p
  constructor
  · intro hp
    rw [Finset.mem_filter] at hp
    obtain ⟨hpm, hplen⟩ := hp
    rw [List.mem_toFinset] at hpm
    obtain ⟨r, hr, hrp⟩ := List.mem_map.mp hpm
    have hrmem := (List.mem_filter.mp hr).1
    have hrg : e.studentGrade r.student = e.studentGrade s := by
      have h := (List.mem_filter.mp hr).2
      simpa using h
    have hpg : e.studentGrade p = e.studentGrade s := by rw [← hrp]; exact hrg
    have hgt : distinct_lessons e p > distinct_lessons e s := by
      rw [hlen p hpg, hmt] at hplen
      exact hplen
    refine Finset.mem_filter.mpr ⟨Finset.mem_erase.mpr ⟨?_, ?_⟩, hpg, hgt⟩
    · intro heq
      rw [heq] at hgt
      exact absurd hgt (lt_irrefl _)
    · rw [List.mem_toFinset]
      exact List.mem_map.mpr ⟨r, hrmem, hrp⟩
  · intro hp
    rw [Finset.mem_filter, Finset.mem_erase] at hp
    obtain ⟨⟨hne, hmem⟩, hpg, hgt⟩ := hp
    rw [List.mem_toFinset] at hmem
    obtain ⟨r, hr, hrp⟩ := List.mem_map.mp hmem
    refine Finset.mem_filter.mpr ⟨?_, ?_⟩
    · rw [List.mem_toFinset]
      refine List.mem_map.mpr ⟨r, ?_, hrp⟩
      refine List.mem_filter.mpr ⟨hr, ?_⟩
      simp only [decide_eq_true_eq]
      rw [hrp]
      exact hpg
    · rw [hlen p hpg, hmt]
      exact hgt

/-- C3 (amended): the engagement fallback rank is
`1 + (count of same-grade students — the student themself included — whose
total take-lesson row count strictly exceeds the student's count of rows
for lessons of the student's own grade)`; when take-lesson rows are unique
per (student, lesson) (the enforced invariant) and same-grade students
only take lessons of their own grade, this equals
`1 + (count of same-grade peers with strictly more distinct lessons)`,
the badge is shown only for rank ≤ 20, and a student with zero qualifying
lessons never gets it. -/
theorem engagement_rank_spec (e : EngEnv) (s : ℕ) (hdup : e.rows.Nodup)
    (hgr : ∀ r ∈ e.rows, e.studentGrade r.student = e.studentGrade s →
      e.lessonGrade r.lesson = e.studentGrade r.student) :
    engagement_rank e s =
      if 0 < distinct_lessons e s ∧ claim_rank e s ≤ 20
      then some (claim_rank e s) else none := by
  unfold engagement_rank claim_rank
  rw [my_taken_eq_distinct e s hdup hgr, better_count_eq e s hdup hgr]
  split_ifs <;> first | rfl | tauto

/-- Witness for `engagement_rank_spec`: all students in grade 0, all
lessons of grade 0; student 0 took 5 distinct lessons, students 1-3 took
6 each, student 4 took 2 — exactly 3 peers strictly ahead, so student 0
ranks 4th. -/
theorem engagement_rank_spec_witness :
    engagement_rank
      ⟨[⟨0, 1⟩, ⟨0, 2⟩, ⟨0, 3⟩, ⟨0, 4⟩, ⟨0, 5⟩,
        ⟨1, 1⟩, ⟨1, 2⟩, ⟨1, 3⟩, ⟨1, 4⟩, ⟨1, 5⟩, ⟨1, 6⟩,
        ⟨2, 1⟩, ⟨2, 2⟩, ⟨2, 3⟩, ⟨2, 4⟩, ⟨2, 5⟩, ⟨2, 6⟩,
        ⟨3, 1⟩, ⟨3, 2⟩, ⟨3, 3⟩, ⟨3, 4⟩, ⟨3, 5⟩, ⟨3, 6⟩,
        ⟨4, 1⟩, ⟨4, 2⟩], fun _ => 0, fun _ => 0⟩ 0 = some 4 := by
  rw [engagement_rank_spec _ 0 (by decide) (by decide)]
  decide

/-! ## Assessment "Top Performer" badge (claim C2)

`DashboardViewSet.list` (viewsets.py:3188-3206) annotates grade rows with
a `DenseRank()` window partitioned by the assessment and ordered by score
descending, then filters `student=student, rank__lte=20` and takes the
first row ordered by `(rank, -created_at)` — once over
`LessonAssessmentGrade` filtered to the student's grade level, and once
over `GeneralAssessmentGrade` filtered to assessments that are global or
of the student's grade.

The window's population must be modelled the way the ORM actually
evaluates it.  When a queryset filters against a window annotation,
Django splits the predicate conjunction: only the predicates that
reference the window (`rank__lte=20`) are applied after the window, in an
outer query emulating SQL QUALIFY; every plain predicate — here
`student=student`, together with the grade filters — lands in the inner
query's WHERE clause, which SQL evaluates *before* window functions
(Django versions without this emulation refuse the query outright).  So
each `DenseRank()` partition contains only the requesting student's own
rows, and since `LessonAssessmentGrade` and `GeneralAssessmentGrade` are
unique per `(assessment, student)`, every partition holds exactly one row:
the annotated rank is identically 1.  The dense rank itself is modelled as
1 + the number of distinct strictly-higher scores within the same
assessment of the window population; `claimCohortRank` below gives, for
comparison, the cohort-wide rank the claim describes.  The two category
winners are combined at viewsets.py:3208-3214 by
`best = lesson_top if lesson_top.rank <= general_top.rank else general_top`. -/

/-- A `LessonAssessmentGrade` row joined with its assessment's subject
grade (`lesson_assessment.lesson.subject.grade`). -/
structure LessonGradeRow where
  student : ℕ
  assessment : ℕ
  subjGrade : ℕ
  score : ℚ
  created : ℤ
deriving DecidableEq

/-- A `GeneralAssessmentGrade` row joined with its assessment's optional
grade scoping (`assessment.grade`, `none` meaning global). -/
structure GeneralGradeRow where
  student : ℕ
  assessment : ℕ
  assessGrade : Option ℕ
  score : ℚ
  created : ℤ
deriving DecidableEq

/-- `DenseRank()` partitioned by assessment, ordered by score descending:
1 + the number of distinct strictly higher scores within the row's
assessment. -/
def denseRank {α : Type} (assessment : α → ℕ) (score : α → ℚ)
    (tab : List α) (g : α) : ℕ :=
  1 + ((tab.filter (fun h => assessment h = assessment g ∧ score g < score h)).map
    score).toFinset.card

/-- `.order_by('rank', '-created_at').first()`: the first list element
under (rank ascending, then created descending), earlier rows winning
exact ties (the database's unspecified residual order is modelled as list
order). -/
def pickFirst {α : Type} (rank : α → ℕ) (created : α → ℤ) : List α → Option α
  | [] => none
  | g :: gs =>
      match pickFirst rank created gs with
      | none => some g
      | some b =>
          if rank b < rank g ∨ (rank b = rank g ∧ created g < created b) then some b
          else some g

theorem pickFirst_mem {α : Type} (rank : α → ℕ) (created : α → ℤ) :
    ∀ (l : List α) (b : α), pickFirst rank created l = some b → b ∈ l := by
  intro l
  induction l with
  | nil => intro b h; simp [pickFirst] at h
  | cons g gs ih =>
      intro b h
      rcases hr : pickFirst rank created gs with _ | b'
      · simp only [pickFirst, hr] at h
        obtain rfl := Option.some_inj.mp h
        exact List.mem_cons_self g gs
      · simp only [pickFirst, hr] at h
        split_ifs at h with hc
        · obtain rfl := Option.some_inj.mp h
          exact List.mem_cons_of_mem g (ih _ hr)
        · obtain rfl := Option.some_inj.mp h
          exact List.mem_cons_self g gs

/-- `LessonAssessmentGrade.objects.filter(lesson_assessment__lesson__subject__grade=student.grade)`
(viewsets.py:3190). -/
def lessonCohort (ltab : List LessonGradeRow) (grade : ℕ) : List LessonGradeRow :=
  ltab.filter (fun g => g.subjGrade = grade)

/-- The population the lesson query's window actually ranks: the plain
predicates of viewsets.py:3190 and 3192 — the grade filter AND
`student=student` — are evaluated in the inner WHERE clause before the
window function runs, so the `DenseRank()` partitions contain only the
requesting student's rows. -/
def lessonWindowRows (ltab : List LessonGradeRow) (me grade : ℕ) : List LessonGradeRow :=
  (lessonCohort ltab grade).filter (fun g => g.student = me)

/-- The rank annotated by the window at viewsets.py:3191, computed over
the pre-filtered window population. -/
def lessonRank (ltab : List LessonGradeRow) (me grade : ℕ) (g : LessonGradeRow) : ℕ :=
  denseRank (fun h => h.assessment) (fun h => h.score) (lessonWindowRows ltab me grade) g

/-- The `lesson_top` query (viewsets.py:3188-3196): the student's
annotated rows, the window-referencing `rank__lte=20` predicate applied
after the window, first by `(rank, -created_at)`. -/
def lesson_top (ltab : List LessonGradeRow) (me grade : ℕ) : Option LessonGradeRow :=
  pickFirst (lessonRank ltab me grade) (fun g => g.created)
    ((lessonWindowRows ltab me grade).filter
      (fun g => lessonRank ltab me grade g ≤ 20))

/-- `GeneralAssessmentGrade.objects.filter(Q(assessment__grade__isnull=True) |
Q(assessment__grade=student.grade))` (viewsets.py:3198-3200). -/
def generalCohort (gtab : List GeneralGradeRow) (grade : ℕ) : List GeneralGradeRow :=
  gtab.filter (fun g => g.assessGrade = none ∨ g.assessGrade = some grade)

/-- The population the general query's window ranks: as in
`lessonWindowRows`, the `student=student` predicate of viewsets.py:3202
is applied before the window. -/
def generalWindowRows (gtab : List GeneralGradeRow) (me grade : ℕ) : List GeneralGradeRow :=
  (generalCohort gtab grade).filter (fun g => g.student = me)

/-- The rank annotated by the window at viewsets.py:3201. -/
def generalRank (gtab : List GeneralGradeRow) (me grade : ℕ) (g : GeneralGradeRow) : ℕ :=
  denseRank (fun h => h.assessment) (fun h => h.score) (generalWindowRows gtab me grade) g

/-- The `general_top` query (viewsets.py:3198-3206). -/
def general_top (gtab : List GeneralGradeRow) (me grade : ℕ) : Option GeneralGradeRow :=
  pickFirst (generalRank gtab me grade) (fun g => g.created)
    ((generalWindowRows gtab me grade).filter
      (fun g => generalRank gtab me grade g ≤ 20))

/-- The category combination (viewsets.py:3208-3214):
`best = lesson_top if lesson_top.rank <= general_top.rank else general_top`
when both exist, else whichever exists. -/
def bestBadge (ltab : List LessonGradeRow) (gtab : List GeneralGradeRow)
    (me grade : ℕ) : Option (Sum LessonGradeRow GeneralGradeRow) :=
  match lesson_top ltab me grade, general_top gtab me grade with
  | some lt, some gt =>
      if lessonRank ltab me grade lt ≤ generalRank gtab me grade gt then some (Sum.inl lt)
      else some (Sum.inr gt)
  | some lt, none => some (Sum.inl lt)
  | none, some gt => some (Sum.inr gt)
  | none, none => none

/-- Modelled from the claim's words: the dense rank of a grade row within
the whole grade-level cohort of its assessment — every student's grades
ranked together — which is the ranking the claim says the badge uses. -/
def claimCohortRank (ltab : List LessonGradeRow) (grade : ℕ) (g : LessonGradeRow) : ℕ :=
  denseRank (fun h => h.assessment) (fun h => h.score) (lessonCohort ltab grade) g

/-- A row whose assessment partition contains no other row gets dense
rank 1: there is no strictly higher score in its partition. -/
theorem denseRank_singleton_partition {α : Type} (assessment : α → ℕ)
    (score : α → ℚ) (tab : List α) (g : α)
    (huni : ∀ h ∈ tab, assessment h = assessment g → h = g) :
    denseRank assessment score tab g = 1 := by
  unfold denseRank
  have hfil : tab.filter (fun h => assessment h = assessment g ∧
      score g < score h) = [] := by
    rw [List.filter_eq_nil_iff]
    intro h hmem
    simp only [decide_eq_true_eq, not_and]
    intro hasm
    rw [huni h hmem hasm]
    exact lt_irrefl _
  rw [hfil]
  simp

/-- C2: the badge does not compute the claimed cohort-wide assessment
ranking.  Because the `student=student` predicate is evaluated before the
`DenseRank()` window, each partition holds only the requesting student's
rows; under the enforced one-grade-per-`(assessment, student)` uniqueness
every annotated rank is 1, so the `rank ≤ 20` cutoff is vacuous and a
cross-category comparison always keeps the lesson-scoped winner (1 ≤ 1).
At the failing input — students 1 and 0 scoring 90 and 80 in the same
assessment — the code selects student 0's row with annotated rank 1,
where the claimed cohort dense rank is 2. -/
theorem assessment_badge_rank_one
    (ltab : List LessonGradeRow) (gtab : List GeneralGradeRow) (me grade : ℕ)
    (hluniq : ∀ g1 ∈ ltab, ∀ g2 ∈ ltab,
      g1.assessment = g2.assessment → g1.student = g2.student → g1 = g2)
    (hguniq : ∀ g1 ∈ gtab, ∀ g2 ∈ gtab,
      g1.assessment = g2.assessment → g1.student = g2.student → g1 = g2) :
    (∀ g ∈ lessonWindowRows ltab me grade, lessonRank ltab me grade g = 1) ∧
    (∀ g ∈ generalWindowRows gtab me grade, generalRank gtab me grade g = 1) ∧
    (∀ lt gt, lesson_top ltab me grade = some lt →
      general_top gtab me grade = some gt →
      bestBadge ltab gtab me grade = some (Sum.inl lt)) ∧
    (lesson_top [⟨1, 1, 0, 90, 3⟩, ⟨0, 1, 0, 80, 5⟩] 0 0 =
        some ⟨0, 1, 0, 80, 5⟩ ∧
      lessonRank [⟨1, 1, 0, 90, 3⟩, ⟨0, 1, 0, 80, 5⟩] 0 0 ⟨0, 1, 0, 80, 5⟩ = 1 ∧
      claimCohortRank [⟨1, 1, 0, 90, 3⟩, ⟨0, 1, 0, 80, 5⟩] 0 ⟨0, 1, 0, 80, 5⟩ = 2) := by
  have hlmem : ∀ g ∈ lessonWindowRows ltab me grade,
      g ∈ ltab ∧ g.student = me := by
    intro g hg
    have h1 := List.mem_filter.mp hg
    have h2 := List.mem_filter.mp h1.1
    have hstu := h1.2
    simp only [decide_eq_true_eq] at hstu
    exact ⟨h2.1, hstu⟩
  have hgmem : ∀ g ∈ generalWindowRows gtab me grade,
      g ∈ gtab ∧ g.student = me := by
    intro g hg
    have h1 := List.mem_filter.mp hg
    have h2 := List.mem_filter.mp h1.1
    have hstu := h1.2
    simp only [decide_eq_true_eq] at hstu
    exact ⟨h2.1, hstu⟩
  have hl1 : ∀ g ∈ lessonWindowRows ltab me grade, lessonRank ltab me grade g = 1 := by
    intro g hg
    refine denseRank_singleton_partition _ _ _ _ ?_
    intro h hh hasm
    obtain ⟨hhl, hhs⟩ := hlmem h hh
    obtain ⟨hgl, hgs⟩ := hlmem g hg
    exact hluniq h hhl g hgl hasm (hhs.trans hgs.symm)
  have hg1 : ∀ g ∈ generalWindowRows gtab me grade, generalRank gtab me grade g = 1 := by
    intro g hg
    refine denseRank_singleton_partition _ _ _ _ ?_
    intro h hh hasm
    obtain ⟨hhl, hhs⟩ := hgmem h hh
    obtain ⟨hgl, hgs⟩ := hgmem g hg
    exact hguniq h hhl g hgl hasm (hhs.trans hgs.symm)
  refine ⟨hl1, hg1, ?_, by decide, by decide, by decide⟩
  intro lt gt hlt hgt
  have hltm : lt ∈ lessonWindowRows ltab me grade :=
    (List.mem_filter.mp (pickFirst_mem _ _ _ lt hlt)).1
  have hgtm : gt ∈ generalWindowRows gtab me grade :=
    (List.mem_filter.mp (pickFirst_mem _ _ _ gt hgt)).1
  have hrl := hl1 lt hltm
  have hrg := hg1 gt hgtm
  simp only [bestBadge, hlt, hgt, hrl, hrg, le_refl, if_pos]

/-- Witness for `assessment_badge_rank_one`: at the failing input the
uniqueness hypotheses hold, and the annotated rank of student 0's
80-score row — ranked against student 1's 90 in the same assessment under
the claimed semantics — evaluates to 1. -/
theorem assessment_badge_rank_one_witness :
    lessonRank [⟨1, 1, 0, 90, 3⟩, ⟨0, 1, 0, 80, 5⟩] 0 0 ⟨0, 1, 0, 80, 5⟩ = 1 :=
  (assessment_badge_rank_one [⟨1, 1, 0, 90, 3⟩, ⟨0, 1, 0, 80, 5⟩] [] 0 0
    (by decide) (by decide)).1 _ (by decide)

end Elearn
